import Mathlib

/-!
Verification of the decision pipeline of `espwAlleleCaller` against its
natural-language specification.

The Python source is shallowly embedded: the pure decision logic
(`BlastHit` ordering and best-hit selection from `auxillary/BlastHit.py`
and `auxillary/blastn.py`, the assembled-sequence classifier
`__processAriba` from `auxillary/ariba.py`, the manifest parser
`_parseFile`, the report writer `_writeResults` and the
fan-out/fallback/merge orchestration `_runner` from `espwAlleleCaller.py`)
becomes Lean functions.  External subprocesses (makeblastdb/blastn, ariba,
the NCBI/SRA downloads) are modelled as oracles supplying their observable
per-genome results, and Python `dict`s become insertion-ordered
association lists with CPython `dict` semantics.
-/

namespace Espw

/-- `Option` fallback: the first value when present, otherwise the second. -/
def orOpt {α : Type} (a b : Option α) : Option α :=
  match a with
  | some x => some x
  | none => b

/-!
## Python `dict` model

A CPython `dict` is insertion ordered: assigning to an existing key
replaces its value in place, assigning a fresh key appends it at the end,
and `dict.update` performs those assignments for every entry of its
argument, in order.  A dict is modelled as the list of its entries.
-/
abbrev PyDict (K V : Type) := List (K × V)

namespace PyDict

variable {K V : Type} [DecidableEq K]

/-- The keys of the dict, in insertion order. -/
def keys (d : PyDict K V) : List K := d.map Prod.fst

/-- `d[k] = v`: replace the value in place when the key exists, append
a fresh entry otherwise. -/
def set (d : PyDict K V) (k : K) (v : V) : PyDict K V :=
  if k ∈ keys d then d.map (fun p => if p.1 = k then (k, v) else p)
  else d ++ [(k, v)]

/-- `d.get(k)`: the value stored at key `k`, if any. -/
def get? : PyDict K V → K → Option V
  | [], _ => none
  | p :: d, k => if p.1 = k then some p.2 else get? d k

/-- `d[k]` with a fallback default (total lookup). -/
def getD (d : PyDict K V) (k : K) (v₀ : V) : V :=
  (get? d k).getD v₀

/-- `d1.update(d2)`: assign every entry of `d2` into `d1`, in order. -/
def update (d e : PyDict K V) : PyDict K V :=
  e.foldl (fun acc p => set acc p.1 p.2) d

/-- `dict(pairs)`: build a dict from a list of pairs, in order. -/
def ofList (l : List (K × V)) : PyDict K V :=
  l.foldl (fun d p => set d p.1 p.2) []

end PyDict

/-!
## `BlastHit` (src/auxillary/BlastHit.py)

One row of tabular alignment evidence.  Python's floats for
`qcovhsp`/`pident` are embedded as rationals.  `__gt__` and `__lt__` are
transcribed branch by branch.
-/
structure BlastHit where
  query : String
  subject : String
  length : Int
  coverage : ℚ
  pid : ℚ
  query_coord : Int × Int
  hit_coord : Int × Int
deriving DecidableEq

namespace BlastHit

/-- `BlastHit.__gt__`: prioritize coverage first, percent identity next;
all remaining cases return `False`. -/
def gt (self other : BlastHit) : Bool :=
  if self.coverage > other.coverage then true
  else if self.coverage < other.coverage then false
  else if self.pid > other.pid then true
  else if self.pid < other.pid then false
  else false

/-- `BlastHit.__lt__`: prioritize coverage first, percent identity next;
all remaining cases return `False`. -/
def lt (self other : BlastHit) : Bool :=
  if self.coverage < other.coverage then true
  else if self.coverage > other.coverage then false
  else if self.pid < other.pid then true
  else if self.pid > other.pid then false
  else false

/-- Equality of hits in the sense of the ordering claim: equal ranking
keys, i.e. equal coverage and equal percent identity. -/
def eqKey (self other : BlastHit) : Bool :=
  self.coverage = other.coverage ∧ self.pid = other.pid

/-- The ranking key of a hit: coverage first, percent identity next,
compared lexicographically. -/
def key (h : BlastHit) : ℚ ×ₗ ℚ := toLex (h.coverage, h.pid)

/-- CPython `max(iterable)`: start from the first item and replace the
current maximum whenever `item > current` (using `__gt__`). -/
def pythonMax (first : BlastHit) (rest : List BlastHit) : BlastHit :=
  rest.foldl (fun acc x => if x.gt acc then x else acc) first

end BlastHit

/-- `__parseBlastTable` (src/auxillary/blastn.py), after its line-parsing
loop produced the list of hits: no hits means espW is absent, otherwise
the best hit (Python `max`) supplies the allele (its query id) and the
contig (its subject id). -/
def parseBlastTable (allHitsL : List BlastHit) : String × Option String :=
  match allHitsL with
  | [] => ("absent", none)
  | h :: t => ((BlastHit.pythonMax h t).query, some (BlastHit.pythonMax h t).subject)

/-!
## Assembled-sequence classifier (src/auxillary/ariba.py, `__processAriba`)

Fragments are nucleotide strings, embedded as `List Char`.  Python's
substring test `marker in seq.lower()` is embedded by `containsSeq`
over the lower-cased character list.
-/

/-- `pat` is a prefix of `s`. -/
def isPrefixList : List Char → List Char → Bool
  | [], _ => true
  | _ :: _, [] => false
  | a :: asl, b :: bs => a == b && isPrefixList asl bs

/-- Python substring containment `pat in s`. -/
def containsSeq (pat : List Char) : List Char → Bool
  | [] => isPrefixList pat []
  | c :: rest => isPrefixList pat (c :: rest) || containsSeq pat rest

/-- Python `str.lower()` over a nucleotide sequence. -/
def seqLower (s : List Char) : List Char := s.map Char.toLower

/-- `INSERTION = Seq("gaaaaaaaaag")` (g, nine a, g). -/
def INSERTION : List Char := "gaaaaaaaaag".toList

/-- `FULL = Seq("gaaaaaaaag")` (g, eight a, g). -/
def FULL : List Char := "gaaaaaaaag".toList

/-- `DELETION = Seq("gaaaaaaag")` (g, seven a, g). -/
def DELETION : List Char := "gaaaaaaag".toList

/-- The closed allele label vocabulary attached to fragments. -/
inductive Allele where
  | insertion
  | fullLength
  | deletion
  | ambiguous
deriving DecidableEq

/-- The Python label string of each allele
(`INS`/`FUL`/`DEL`/`AMB` constants of `__processAriba`). -/
def Allele.toLabel : Allele → String
  | .insertion => "insertion"
  | .fullLength => "full length"
  | .deletion => "deletion"
  | .ambiguous => "ambiguous"

/-- The per-record branch of `__processAriba`'s loop: check for each
marker in priority order insertion, full-length, deletion; otherwise the
record is ambiguous. -/
def classifyFragment (seq : List Char) : Allele :=
  if containsSeq INSERTION (seqLower seq) then .insertion
  else if containsSeq FULL (seqLower seq) then .fullLength
  else if containsSeq DELETION (seqLower seq) then .deletion
  else .ambiguous

/-- The `alleles` set accumulated by `__processAriba`'s loop
(`alleles.add(...)` for every record). -/
def alleleSetOf (frags : List (List Char)) : Finset Allele :=
  frags.foldl (fun s f => insert (classifyFragment f) s) ∅

/-- `set.pop()` on the singleton sets `__processAriba` pops from: returns
the unique element of a one-element set (checked per label). -/
def pickAllele (s : Finset Allele) : Allele :=
  if Allele.insertion ∈ s then .insertion
  else if Allele.fullLength ∈ s then .fullLength
  else if Allele.deletion ∈ s then .deletion
  else .ambiguous

/-- `__processAriba` after the loop: empty set means absent; a single
allele is returned; with several alleles, `ambiguous` is discarded and the
remaining set is returned when a single allele is left, otherwise the
"multiple alleles detected" error carries the conflicting alleles. -/
def processAriba (frags : List (List Char)) : Except (Finset Allele) String :=
  if alleleSetOf frags = ∅ then .ok "absent"
  else if (alleleSetOf frags).card = 1 then .ok (pickAllele (alleleSetOf frags)).toLabel
  else if Allele.ambiguous ∈ alleleSetOf frags then
    if ((alleleSetOf frags).erase .ambiguous).card = 1 then
      .ok (pickAllele ((alleleSetOf frags).erase .ambiguous)).toLabel
    else .error ((alleleSetOf frags).erase .ambiguous)
  else .error (alleleSetOf frags)

/-- The per-fragment rule in the words of spec §4.2: label each fragment,
case-insensitively, by the first of the three markers it contains in the
fixed priority order insertion, full-length, deletion; `ambiguous` when
none matches. -/
def specFragmentLabel (seq : List Char) : Allele :=
  if containsSeq INSERTION (seqLower seq) then .insertion
  else if containsSeq FULL (seqLower seq) then .fullLength
  else if containsSeq DELETION (seqLower seq) then .deletion
  else .ambiguous

/-- The aggregation policy in the words of spec §4.2, over the set of
per-fragment labels: zero fragments give `absent`; exactly one distinct
label gives that label (`pickAllele` returns the unique element of a
singleton set, see `pickAllele_singleton`); with more than one distinct
label, `ambiguous` among them is discarded and re-evaluated — one
remaining label is returned, otherwise the conflict error names the
remaining labels; more than one distinct non-ambiguous label is the same
conflict error. -/
def classifierSpec (frags : List (List Char)) : Except (Finset Allele) String :=
  if frags = [] then .ok "absent"
  else if ((frags.map specFragmentLabel).toFinset).card = 1 then
    .ok (pickAllele ((frags.map specFragmentLabel).toFinset)).toLabel
  else if Allele.ambiguous ∈ (frags.map specFragmentLabel).toFinset then
    if (((frags.map specFragmentLabel).toFinset).erase .ambiguous).card = 1 then
      .ok (pickAllele (((frags.map specFragmentLabel).toFinset).erase .ambiguous)).toLabel
    else .error (((frags.map specFragmentLabel).toFinset).erase .ambiguous)
  else .error ((frags.map specFragmentLabel).toFinset)

instance {ε α : Type} [DecidableEq ε] [DecidableEq α] : DecidableEq (Except ε α) :=
  fun x y =>
    match x, y with
    | .error e, .error f =>
      if h : e = f then .isTrue (h ▸ rfl) else .isFalse (fun hc => h (by cases hc; rfl))
    | .error _, .ok _ => .isFalse (fun hc => Except.noConfusion hc)
    | .ok _, .error _ => .isFalse (fun hc => Except.noConfusion hc)
    | .ok a, .ok b =>
      if h : a = b then .isTrue (h ▸ rfl) else .isFalse (fun hc => h (by cases hc; rfl))

/-- A fragment that is exactly the eleven-base sequence `GAAAAAAAAAG`
(a `g`, nine `a`, a `g`): the insertion marker, upper-cased. -/
def markerFragment : List Char := "GAAAAAAAAAG".toList

/-!
## Manifest parser (`_parseFile`, src/espwAlleleCaller.py)

A manifest is a list of raw lines, each embedded as `List Char`.  The
parser right-strips each line, splits it on tabs, skips rows equal to
`['']` and assigns `out[key] = (accession, srr)`; a non-blank row with
fewer than three fields raises (embedded as `none`).
-/

/-- Python `str.rstrip()`: drop trailing whitespace. -/
def rstripChars (s : List Char) : List Char :=
  (s.reverse.dropWhile Char.isWhitespace).reverse

/-- Helper for `splitTab`, accumulating the current field reversed. -/
def splitTabGo : List Char → List Char → List (List Char)
  | [], cur => [cur.reverse]
  | c :: rest, cur =>
    if c = '\t' then cur.reverse :: splitTabGo rest [] else splitTabGo rest (c :: cur)

/-- Python `str.split("\t")`. -/
def splitTab (s : List Char) : List (List Char) := splitTabGo s []

/-- One iteration of `_parseFile`'s loop; `none` embeds the `IndexError`
raised on a non-blank row with fewer than three fields. -/
def parseFileStep (out : PyDict String (String × String)) (line : List Char) :
    Option (PyDict String (String × String)) :=
  if splitTab (rstripChars line) = [[]] then some out
  else
    match splitTab (rstripChars line) with
    | k :: a :: s :: _ => some (out.set k.asString (a.asString, s.asString))
    | _ => none

/-- `_parseFile`: fold the per-line step over the manifest, starting from
the empty dict. -/
def parseFile (lines : List (List Char)) : Option (PyDict String (String × String)) :=
  lines.foldlM parseFileStep []

/-- The `(accession, srr)` pair a single manifest line binds to the genome
key `k`: `none` when the line is blank, malformed, or keyed otherwise. -/
def lineBinding (line : List Char) (k : String) : Option (String × String) :=
  if splitTab (rstripChars line) = [[]] then none
  else
    match splitTab (rstripChars line) with
    | key :: a :: s :: _ =>
      if key.asString = k then some (a.asString, s.asString) else none
    | _ => none

/-!
## Orchestration (`_runner`, src/espwAlleleCaller.py)

The external tools appear through an oracle of their observable
per-genome results; the subprocess invocations the orchestrator performs
are recorded as events, listed in dispatch order.  `Pool.starmap` returns
worker results in argument order regardless of completion order (theorem
`collectStarmap_perm`), so each fan-out stage is embedded as a map over
its argument list.
-/

/-- The externally observable subprocess invocations of a batch run that
the verified claims talk about.  `buildAribaDb true` is a database build
performed inside a pooled worker (`_runOneAriba → _ariba →
__buildAribaDb`); `buildAribaDb false` is the build in the sequential
setup loop of `_runAllAribas` (guarded by the `built` flag). -/
inductive Event where
  | runBlastSearch (key : String)
  | downloadSrrs (srrIds : List String)
  | buildAribaDb (insideWorker : Bool)
  | runAribaAssembly (key : String)
deriving DecidableEq

/-- Results of the external collaborators: `blastn accession` is the
`(allele, contig)` pair `_blastn` computes from the downloaded assembly of
that accession; `ariba srr` is the allele `_ariba` computes from that
srr's reads (for runs in which no tool fails and the classifier reports
no conflict). -/
structure Oracles where
  blastn : String → String × Option String
  ariba : String → String

/-- The manifest entries whose accession is not in the missing set: the
genomes `_runAllBlasts` fans out over, in `parsed` order. -/
def keptEntries (parsed : PyDict String (String × String)) (missing : List String) :
    PyDict String (String × String) :=
  parsed.filter (fun p => decide (p.2.1 ∉ missing))

/-- The manifest entries whose accession is in the missing set: the
genomes `_runner` excludes from the primary fan-out, in `parsed` order. -/
def missingEntries (parsed : PyDict String (String × String)) (missing : List String) :
    PyDict String (String × String) :=
  parsed.filter (fun p => decide (p.2.1 ∈ missing))

/-- The `(key, accession)` argument list built by `_runAllBlasts`'s loop:
one entry per genome whose accession is not missing, in `parsed` order. -/
def primaryArgs (parsed : PyDict String (String × String)) (missing : List String) :
    List (String × String) :=
  (keptEntries parsed missing).map (fun p => (p.1, p.2.1))

/-- `_runAllBlasts`: fan out one `_runOneBlastn` per argument and collect
`dict(results)`; `_runOneBlastn` returns `(key, allele)`, dropping the
contig `_blastn` also returned. -/
def runAllBlasts (parsed : PyDict String (String × String)) (missing : List String)
    (g : Oracles) : PyDict String String × List Event :=
  (PyDict.ofList ((primaryArgs parsed missing).map (fun p => (p.1, (g.blastn p.2).1))),
   (primaryArgs parsed missing).map (fun p => Event.runBlastSearch p.1))

/-- `_runAllAribas`: the sequential setup loop builds the ariba database
once (flag `built`) before the pool exists; then each pooled worker runs
`_runOneAriba → _ariba`, and `_ariba` itself calls `__buildAribaDb` again
inside the worker before running ariba. -/
def runAllAribas (srrs : PyDict String String) (g : Oracles) :
    PyDict String String × List Event :=
  (PyDict.ofList (srrs.map (fun p => (p.1, g.ariba p.2))),
   (if srrs = [] then [] else [Event.buildAribaDb false]) ++
     (srrs.map (fun p => [Event.buildAribaDb true, Event.runAribaAssembly p.1])).flatten)

/-- The ariba work list `srrs` computed by `_runner`: genomes whose blast
result is `absent` (in results order), then — via `srrs.update` — genomes
whose accession is in the missing set (in `parsed` order). -/
def fallbackSrrs (parsed : PyDict String (String × String)) (missing : List String)
    (g : Oracles) : PyDict String String :=
  PyDict.update
    (((runAllBlasts parsed missing g).1.filter (fun p => decide (p.2 = "absent"))).map
      (fun p => (p.1, (PyDict.getD parsed p.1 ("", "")).2)))
    ((missingEntries parsed missing).map (fun p => (p.1, p.2.2)))

/-- The decision core of `_runner` between the assembly download and the
report: run all blasts, compute the srr work list, and only when it is
non-empty download the reads, run all aribas and overwrite the results
(`results.update(...)`).  Returns the final mapping and the event trace. -/
def runnerCore (parsed : PyDict String (String × String)) (missing : List String)
    (g : Oracles) : PyDict String String × List Event :=
  if fallbackSrrs parsed missing g = [] then runAllBlasts parsed missing g
  else
    ((runAllBlasts parsed missing g).1.update
        (runAllAribas (fallbackSrrs parsed missing g) g).1,
     (runAllBlasts parsed missing g).2 ++
       [Event.downloadSrrs ((fallbackSrrs parsed missing g).map Prod.snd)] ++
       (runAllAribas (fallbackSrrs parsed missing g) g).2)

/-- `_writeResults`: write `key \t allele \n` for every mapping entry, in
dict order. -/
def writeResults (results : PyDict String String) : String :=
  results.foldl (fun acc p => acc ++ p.1 ++ "\t" ++ p.2 ++ "\n") ""

/-!
## `Pool.starmap` and completion order

A pool run delivers `(argument index, result)` pairs in whatever order
the workers finish; `starmap` reassembles them by argument index.
-/

/-- The indexed results of a work list, in argument order. -/
def indexedResults {α : Type} (l : List α) : List (Nat × α) :=
  l.enum

/-- Reassembling completed `(index, result)` pairs by argument index. -/
def collectStarmap {α : Type} (n : Nat) (completed : List (Nat × α)) : List (Option α) :=
  (List.range n).map (fun i => (completed.find? (fun p => decide (p.1 = i))).map Prod.snd)

/-- An oracle for witness runs: the primary strategy reports `absent` for
every genome, the secondary strategy reports `deletion`. -/
def simpleOracle : Oracles where
  blastn := fun _ => ("absent", none)
  ariba := fun _ => "deletion"

/-- An oracle for witness runs: the primary strategy finds a full-length
hit on contig `c1` for every genome. -/
def fullHitOracle : Oracles where
  blastn := fun _ => ("full length", some "c1")
  ariba := fun _ => "ambiguous"

/-- `fullHitOracle` with the contig information removed. -/
def fullHitOracleNoContig : Oracles where
  blastn := fun _ => ("full length", none)
  ariba := fun _ => "ambiguous"

/-- An oracle under which genome `B`'s assembly blasts to a full-length
hit while everything else is primary-absent, and reads assemble to a
deletion call. -/
def mixedOracle : Oracles where
  blastn := fun acc => if acc = "accB" then ("full length", some "c1") else ("absent", none)
  ariba := fun _ => "deletion"

@[simp] theorem orOpt_none_left {α : Type} (b : Option α) : orOpt none b = b := rfl

@[simp] theorem orOpt_some_left {α : Type} (x : α) (b : Option α) :
    orOpt (some x) b = some x := rfl

@[simp] theorem orOpt_none_right {α : Type} (a : Option α) : orOpt a none = a := by
  cases a <;> rfl

theorem orOpt_assoc {α : Type} (a b c : Option α) :
    orOpt (orOpt a b) c = orOpt a (orOpt b c) := by
  cases a <;> rfl

namespace PyDict

variable {K V : Type} [DecidableEq K]

@[simp] theorem keys_nil : keys ([] : PyDict K V) = [] := rfl

@[simp] theorem keys_cons (p : K × V) (d : PyDict K V) :
    keys (p :: d) = p.1 :: keys d := rfl

theorem keys_append (d e : PyDict K V) : keys (d ++ e) = keys d ++ keys e :=
  List.map_append _ _ _

theorem mem_keys {d : PyDict K V} {k : K} : k ∈ keys d ↔ ∃ v, (k, v) ∈ d := by
  constructor
  · intro h
    rcases List.mem_map.mp h with ⟨p, hp, hk⟩
    exact ⟨p.2, by cases p; cases hk; exact hp⟩
  · rintro ⟨v, hv⟩
    exact List.mem_map.mpr ⟨(k, v), hv, rfl⟩

theorem get?_eq_none {d : PyDict K V} {k : K} (h : k ∉ keys d) : get? d k = none := by
  induction d with
  | nil => rfl
  | cons p d ih =>
    have h1 : p.1 ≠ k := fun he => h (by simp [he])
    have h2 : k ∉ keys d := fun hm => h (by simp [hm])
    simp [get?, h1, ih h2]

theorem get?_append (d e : PyDict K V) (k : K) :
    get? (d ++ e) k = orOpt (get? d k) (get? e k) := by
  induction d with
  | nil => simp [get?]
  | cons p d ih =>
    by_cases h : p.1 = k <;> simp [get?, h, ih]

theorem keys_map_overwrite (k : K) (v : V) (d : PyDict K V) :
    keys (d.map (fun p => if p.1 = k then (k, v) else p)) = keys d := by
  induction d with
  | nil => rfl
  | cons p d ih =>
    by_cases h : p.1 = k <;> simp [h, ih]

theorem keys_set (d : PyDict K V) (k : K) (v : V) :
    keys (set d k v) = if k ∈ keys d then keys d else keys d ++ [k] := by
  unfold set
  split_ifs with h
  · exact keys_map_overwrite k v d
  · rw [keys_append]; rfl

theorem mem_keys_set {d : PyDict K V} {k x : K} {v : V} :
    x ∈ keys (set d k v) ↔ x ∈ keys d ∨ x = k := by
  rw [keys_set]
  split_ifs with h
  · constructor
    · exact Or.inl
    · rintro (hx | rfl)
      · exact hx
      · exact h
  · simp

theorem get?_set_self (d : PyDict K V) (k : K) (v : V) :
    get? (set d k v) k = some v := by
  unfold set
  split_ifs with h
  · induction d with
    | nil => cases h
    | cons p d ih =>
      by_cases hp : p.1 = k
      · simp [get?, hp]
      · have h2 : k ∈ keys d := by
          rcases (by simpa using h : k = p.1 ∨ k ∈ keys d) with h' | h'
          · exact absurd h'.symm hp
          · exact h'
        simp [get?, hp, ih h2]
  · rw [get?_append, get?_eq_none h]
    simp [get?]

theorem get?_map_overwrite_ne {x k : K} (v : V) (hne : x ≠ k) (d : PyDict K V) :
    get? (d.map (fun p => if p.1 = k then (k, v) else p)) x = get? d x := by
  induction d with
  | nil => rfl
  | cons p d ih =>
    by_cases hp : p.1 = k
    · subst hp
      simp [get?, Ne.symm hne, ih]
    · rw [List.map_cons, if_neg hp]
      simp only [get?]
      rw [ih]

theorem get?_set_ne {x k : K} (d : PyDict K V) (v : V) (hne : x ≠ k) :
    get? (set d k v) x = get? d x := by
  unfold set
  split_ifs with h
  · exact get?_map_overwrite_ne v hne d
  · rw [get?_append]
    simp [get?, Ne.symm hne]

theorem mem_keys_update {d e : PyDict K V} {x : K} :
    x ∈ keys (update d e) ↔ x ∈ keys d ∨ x ∈ keys e := by
  induction e generalizing d with
  | nil => simp [update]
  | cons p e ih =>
    show x ∈ keys (update (set d p.1 p.2) e) ↔ _
    rw [ih, mem_keys_set]
    simp
    tauto

theorem get?_update (d e : PyDict K V) (k : K) (he : (keys e).Nodup) :
    get? (update d e) k = orOpt (get? e k) (get? d k) := by
  induction e generalizing d with
  | nil => simp [update, get?]
  | cons p e ih =>
    rw [keys_cons, List.nodup_cons] at he
    show get? (update (set d p.1 p.2) e) k = _
    rw [ih _ he.2]
    by_cases hk : p.1 = k
    · subst hk
      rw [get?_eq_none he.1]
      simp [get?, get?_set_self]
    · rw [get?_set_ne _ _ (fun he' => hk he'.symm)]
      simp [get?, hk]

theorem keys_update (d e : PyDict K V) (he : (keys e).Nodup) :
    keys (update d e) = keys d ++ (keys e).filter (fun x => decide (x ∉ keys d)) := by
  induction e generalizing d with
  | nil => simp [update]
  | cons p e ih =>
    rw [keys_cons, List.nodup_cons] at he
    show keys (update (set d p.1 p.2) e) = _
    rw [ih _ he.2, keys_set, keys_cons, List.filter_cons]
    have hpe : ∀ L : List K, (keys e).filter (fun x => decide (x ∉ L ++ [p.1]))
        = (keys e).filter (fun x => decide (x ∉ L)) := by
      intro L
      apply List.filter_congr
      intro a ha
      have hap : a ≠ p.1 := fun h' => he.1 (h' ▸ ha)
      simp [hap]
    by_cases hd : p.1 ∈ keys d
    · rw [if_pos hd]
      simp [hd]
    · rw [if_neg hd, hpe, List.append_assoc]
      simp [hd]

theorem nodup_keys_update (d e : PyDict K V) (hd : (keys d).Nodup)
    (he : (keys e).Nodup) : (keys (update d e)).Nodup := by
  rw [keys_update _ _ he]
  refine List.Nodup.append hd (he.filter _) ?_
  intro x hx1 hx2
  have := List.of_mem_filter hx2
  simp at this
  exact this hx1

theorem ofList_eq_self_aux (l : List (K × V)) (d : PyDict K V)
    (hdisj : ∀ p ∈ l, p.1 ∉ keys d) (h : (l.map Prod.fst).Nodup) :
    l.foldl (fun acc p => set acc p.1 p.2) d = d ++ l := by
  induction l generalizing d with
  | nil => simp
  | cons p l ih =>
    rw [List.map_cons, List.nodup_cons] at h
    have h1 : p.1 ∉ keys d := hdisj p (List.mem_cons_self _ _)
    rw [List.foldl_cons, show set d p.1 p.2 = d ++ [(p.1, p.2)] from by
      rw [set, if_neg h1]]
    rw [ih _ ?_ h.2]
    · simp
    · intro q hq
      rw [keys_append]
      simp
      constructor
      · exact fun hm => hdisj q (List.mem_cons_of_mem _ hq) hm
      · intro he
        exact h.1 (he ▸ List.mem_map.mpr ⟨q, hq, rfl⟩)

theorem ofList_eq_self (l : List (K × V)) (h : (l.map Prod.fst).Nodup) :
    ofList l = l := by
  unfold ofList
  rw [ofList_eq_self_aux l [] (by intro p _; simp [keys]) h]
  rfl

theorem get?_eq_some_iff {d : PyDict K V} (hd : (keys d).Nodup) {k : K} {v : V} :
    get? d k = some v ↔ (k, v) ∈ d := by
  induction d with
  | nil => simp [get?]
  | cons p d ih =>
    rw [keys_cons, List.nodup_cons] at hd
    by_cases h : p.1 = k
    · subst h
      simp only [get?, if_pos rfl, Option.some.injEq, List.mem_cons]
      constructor
      · intro hv
        left
        cases p
        simp at hv ⊢
        exact hv.symm
      · rintro (h1 | h2)
        · cases p
          simp at h1 ⊢
          exact h1.symm
        · exact absurd (mem_keys.mpr ⟨v, h2⟩) hd.1
    · simp only [get?, if_neg h, ih hd.2, List.mem_cons]
      constructor
      · exact Or.inr
      · rintro (h1 | h2)
        · exact absurd (congrArg Prod.fst h1).symm h
        · exact h2

end PyDict

namespace BlastHit

theorem gt_iff_key {a b : BlastHit} : a.gt b = true ↔ b.key < a.key := by
  rw [key, key, Prod.Lex.lt_iff]
  unfold gt
  split_ifs with h1 h2 h3 h4 <;> simp
  · exact Or.inl h1
  · exact ⟨by linarith, fun he => by linarith⟩
  · exact Or.inr ⟨by linarith, h3⟩
  · exact ⟨by linarith, fun he => by linarith⟩
  · exact ⟨by linarith, fun he => by linarith⟩

theorem lt_iff_key {a b : BlastHit} : a.lt b = true ↔ a.key < b.key := by
  rw [key, key, Prod.Lex.lt_iff]
  unfold lt
  split_ifs with h1 h2 h3 h4 <;> simp
  · exact Or.inl h1
  · exact ⟨by linarith, fun he => by linarith⟩
  · exact Or.inr ⟨by linarith, h3⟩
  · exact ⟨by linarith, fun he => by linarith⟩
  · exact ⟨by linarith, fun he => by linarith⟩

theorem eqKey_iff {a b : BlastHit} : a.eqKey b = true ↔ a.key = b.key := by
  simp only [eqKey, key, decide_eq_true_eq, toLex_inj, Prod.ext_iff]

theorem pythonMax_mem (h : BlastHit) (t : List BlastHit) :
    pythonMax h t ∈ h :: t := by
  induction t generalizing h with
  | nil => simp [pythonMax]
  | cons y ys ih =>
    show List.foldl _ (if y.gt h then y else h) ys ∈ _
    by_cases hy : y.gt h = true
    · rw [if_pos hy]
      have := ih y
      simp [List.mem_cons] at this ⊢
      tauto
    · rw [if_neg hy]
      have := ih h
      simp [List.mem_cons] at this ⊢
      tauto

theorem pythonMax_not_lt_key (h : BlastHit) (t : List BlastHit) :
    ∀ x ∈ h :: t, ¬ (pythonMax h t).key < x.key := by
  induction t generalizing h with
  | nil =>
    intro x hx
    rw [List.mem_singleton] at hx
    subst hx
    simp [pythonMax]
  | cons y ys ih =>
    intro x hx
    show ¬ (List.foldl _ (if y.gt h then y else h) ys).key < x.key
    by_cases hy : y.gt h = true
    · rw [if_pos hy]
      rcases List.mem_cons.mp hx with rfl | hx'
      · -- x = h; h.key < y.key and the fold result is not below y
        have h1 : x.key < y.key := gt_iff_key.mp hy
        have h2 : ¬ (pythonMax y ys).key < y.key :=
          ih y y (List.mem_cons_self _ _)
        intro hc
        exact h2 (lt_trans hc h1)
      · exact ih y x hx'
    · rw [if_neg hy]
      rcases List.mem_cons.mp hx with rfl | hx'
      · exact ih x x (List.mem_cons_self _ _)
      · rcases List.mem_cons.mp hx' with rfl | hx''
        · -- x = y; ¬ h.key < y.key, and the fold result is not below h
          have h1 : ¬ h.key < x.key := fun hc => hy (gt_iff_key.mpr hc)
          have h2 : ¬ (pythonMax h ys).key < h.key :=
            ih h h (List.mem_cons_self _ _)
          intro hc
          exact h2 (lt_of_lt_of_le hc (not_lt.mp h1))
        · exact ih h x (List.mem_cons_of_mem _ hx'')

end BlastHit

theorem pickAllele_singleton (a : Allele) : pickAllele {a} = a := by
  cases a <;> rfl

theorem mem_foldl_insert (l : List (List Char)) (s : Finset Allele) (x : Allele) :
    x ∈ l.foldl (fun s f => insert (classifyFragment f) s) s ↔
      x ∈ s ∨ ∃ f ∈ l, classifyFragment f = x := by
  induction l generalizing s with
  | nil => simp
  | cons a t ih =>
    rw [List.foldl_cons, ih]
    simp [Finset.mem_insert]
    tauto

theorem mem_alleleSetOf {frags : List (List Char)} {x : Allele} :
    x ∈ alleleSetOf frags ↔ ∃ f ∈ frags, classifyFragment f = x := by
  rw [alleleSetOf, mem_foldl_insert]
  simp

theorem alleleSetOf_eq_toFinset (frags : List (List Char)) :
    alleleSetOf frags = (frags.map specFragmentLabel).toFinset := by
  have hfun : specFragmentLabel = classifyFragment := rfl
  ext x
  rw [mem_alleleSetOf, List.mem_toFinset, hfun]
  simp [List.mem_map]

theorem alleleSetOf_empty_iff {frags : List (List Char)} :
    alleleSetOf frags = ∅ ↔ frags = [] := by
  cases frags with
  | nil => simp [alleleSetOf]
  | cons f t =>
    constructor
    · intro h
      have hm : classifyFragment f ∈ alleleSetOf (f :: t) :=
        mem_alleleSetOf.mpr ⟨f, List.mem_cons_self _ _, rfl⟩
      rw [h] at hm
      exact absurd hm (Finset.not_mem_empty _)
    · intro h
      cases h

/-- Claim C1: on every fragment collection the classifier computes the
reference policy of spec §4.2 — per-fragment labelling by the first
contained marker in the priority order insertion, full-length, deletion
(else `ambiguous`), then aggregation: no fragments is `absent`, one
distinct label is returned, `ambiguous` among several labels is only ever
discarded, and any remaining conflict fails naming the remaining labels. -/
theorem claim_classifier_matches_spec (frags : List (List Char)) :
    processAriba frags = classifierSpec frags := by
  unfold processAriba classifierSpec
  rw [← alleleSetOf_eq_toFinset]
  by_cases hf : frags = []
  · subst hf
    simp [alleleSetOf]
  · rw [if_neg hf, if_neg (fun h => hf (alleleSetOf_empty_iff.mp h))]

/-- Counterexample to claim C5: the subsequence `GAAAAAAAAAG` (nine `A`s)
is the insertion marker, not the full-length marker (`GAAAAAAAAG`, eight
`A`s), so a single fragment containing it classifies as `insertion`, not
`full length`. -/
theorem claim_full_marker_cex :
    containsSeq INSERTION (seqLower markerFragment) = true ∧
    processAriba [markerFragment] ≠ Except.ok "full length" := by
  constructor
  · decide
  · decide

/-- Claim C5 (amended): a fragment collection consisting of a single
fragment that contains the subsequence `GAAAAAAAAAG` (case-insensitively)
— the insertion marker — classifies as `insertion`. -/
theorem claim_single_marker_fragment (seq : List Char)
    (h : containsSeq INSERTION (seqLower seq) = true) :
    processAriba [seq] = Except.ok "insertion" := by
  have hc : classifyFragment seq = Allele.insertion := by
    unfold classifyFragment
    rw [h]
    rfl
  have hs : alleleSetOf [seq] = {Allele.insertion} := by
    simp [alleleSetOf, hc]
  unfold processAriba
  rw [hs]
  decide

/-- Witness for the amended claim C5 at the concrete fragment. -/
theorem claim_single_marker_fragment_witness :
    containsSeq INSERTION (seqLower markerFragment) = true ∧
    processAriba [markerFragment] = Except.ok "insertion" :=
  ⟨by decide, claim_single_marker_fragment markerFragment (by decide)⟩

/-- Claim C9: on every pair of hits exactly one of `__gt__`, `__lt__` and
key-equality (equal coverage and equal percent identity) holds, and each
of the three relations is transitive. -/
theorem claim_hit_order :
    (∀ a b : BlastHit,
      (a.gt b = true ∧ a.lt b = false ∧ a.eqKey b = false) ∨
      (a.gt b = false ∧ a.lt b = true ∧ a.eqKey b = false) ∨
      (a.gt b = false ∧ a.lt b = false ∧ a.eqKey b = true)) ∧
    (∀ a b c : BlastHit, a.gt b = true → b.gt c = true → a.gt c = true) ∧
    (∀ a b c : BlastHit, a.lt b = true → b.lt c = true → a.lt c = true) ∧
    (∀ a b c : BlastHit, a.eqKey b = true → b.eqKey c = true → a.eqKey c = true) := by
  have bf : ∀ x : Bool, ¬x = true → x = false := by decide
  refine ⟨?_, ?_, ?_, ?_⟩
  · intro a b
    rcases lt_trichotomy a.key b.key with h | h | h
    · refine Or.inr (Or.inl ⟨bf _ ?_, BlastHit.lt_iff_key.mpr h, bf _ ?_⟩)
      · intro hg
        exact absurd (BlastHit.gt_iff_key.mp hg) (lt_asymm h)
      · intro he
        exact absurd (BlastHit.eqKey_iff.mp he) (ne_of_lt h)
    · refine Or.inr (Or.inr ⟨bf _ ?_, bf _ ?_, BlastHit.eqKey_iff.mpr h⟩)
      · intro hg
        have := BlastHit.gt_iff_key.mp hg
        rw [h] at this
        exact lt_irrefl _ this
      · intro hl
        have := BlastHit.lt_iff_key.mp hl
        rw [h] at this
        exact lt_irrefl _ this
    · refine Or.inl ⟨BlastHit.gt_iff_key.mpr h, bf _ ?_, bf _ ?_⟩
      · intro hl
        exact absurd (BlastHit.lt_iff_key.mp hl) (lt_asymm h)
      · intro he
        exact absurd (BlastHit.eqKey_iff.mp he).symm (ne_of_lt h)
  · intro a b c h1 h2
    exact BlastHit.gt_iff_key.mpr
      (lt_trans (BlastHit.gt_iff_key.mp h2) (BlastHit.gt_iff_key.mp h1))
  · intro a b c h1 h2
    exact BlastHit.lt_iff_key.mpr
      (lt_trans (BlastHit.lt_iff_key.mp h1) (BlastHit.lt_iff_key.mp h2))
  · intro a b c h1 h2
    exact BlastHit.eqKey_iff.mpr
      ((BlastHit.eqKey_iff.mp h1).trans (BlastHit.eqKey_iff.mp h2))

/-- Witness for claim C9's transitivity of `__gt__` at concrete hits. -/
theorem claim_hit_order_witness :
    BlastHit.gt ⟨"q1", "s1", 0, 96, 10, (0, 0), (0, 0)⟩
        ⟨"q3", "s3", 0, 95, 80, (0, 0), (0, 0)⟩ = true :=
  claim_hit_order.2.1
    ⟨"q1", "s1", 0, 96, 10, (0, 0), (0, 0)⟩
    ⟨"q2", "s2", 0, 95, 99, (0, 0), (0, 0)⟩
    ⟨"q3", "s3", 0, 95, 80, (0, 0), (0, 0)⟩
    (by decide) (by decide)

/-- Claim C2: for every non-empty hit collection, `__parseBlastTable`
returns the query (allele label) and subject (contig) of a hit that is
maximal under coverage-descending then percent-identity-descending
ordering (identity compared only at exactly equal coverage); on the
three-hit example (cov 90, pid 95), (cov 95, pid 80), (cov 95, pid 99) it
selects the third; the empty collection yields `absent` with no contig. -/
theorem claim_best_hit_selection :
    (∀ hits : List BlastHit, hits ≠ [] →
      ∃ m ∈ hits, parseBlastTable hits = (m.query, some m.subject) ∧
        ∀ x ∈ hits, ¬ m.key < x.key) ∧
    (∀ q1 s1 q2 s2 q3 s3 : String,
      parseBlastTable
        [⟨q1, s1, 0, 90, 95, (0, 0), (0, 0)⟩,
         ⟨q2, s2, 0, 95, 80, (0, 0), (0, 0)⟩,
         ⟨q3, s3, 0, 95, 99, (0, 0), (0, 0)⟩] = (q3, some s3)) ∧
    parseBlastTable [] = ("absent", none) := by
  refine ⟨?_, ?_, rfl⟩
  · intro hits hne
    match hits with
    | h :: t =>
      exact ⟨BlastHit.pythonMax h t, BlastHit.pythonMax_mem h t, rfl,
        BlastHit.pythonMax_not_lt_key h t⟩
  · intro q1 s1 q2 s2 q3 s3
    show ((BlastHit.pythonMax _ _).query, some (BlastHit.pythonMax _ _).subject) = _
    norm_num [BlastHit.pythonMax, BlastHit.gt]

/-- Witness for claim C2 at a concrete non-empty collection. -/
theorem claim_best_hit_selection_witness :
    ∃ m ∈ [(⟨"espW_full", "contig1", 10, 90, 95, (1, 10), (5, 14)⟩ : BlastHit)],
      parseBlastTable [⟨"espW_full", "contig1", 10, 90, 95, (1, 10), (5, 14)⟩]
          = (m.query, some m.subject) ∧
        ∀ x ∈ [(⟨"espW_full", "contig1", 10, 90, 95, (1, 10), (5, 14)⟩ : BlastHit)],
          ¬ m.key < x.key :=
  claim_best_hit_selection.1 _ (by simp)

theorem getLast?_cons_orOpt {α : Type} (x : α) (xs : List α) :
    (x :: xs).getLast? = orOpt xs.getLast? (some x) := by
  cases xs with
  | nil => rfl
  | cons y ys =>
    rw [List.getLast?_cons_cons]
    cases h : (y :: ys).getLast? with
    | none => exact absurd (List.getLast?_eq_none.mp h) (List.cons_ne_nil y ys)
    | some z => rfl

theorem step_characterization (out : PyDict String (String × String)) (line : List Char)
    (d1 : PyDict String (String × String)) (h : parseFileStep out line = some d1)
    (k : String) :
    PyDict.get? d1 k = orOpt (lineBinding line k) (PyDict.get? out k) := by
  unfold parseFileStep at h
  unfold lineBinding
  by_cases hb : splitTab (rstripChars line) = [[]]
  · rw [if_pos hb] at h
    rw [if_pos hb]
    injection h with h2
    subst h2
    simp
  · rw [if_neg hb] at h
    rw [if_neg hb]
    rcases hrow : splitTab (rstripChars line) with _ | ⟨r0, _ | ⟨r1, _ | ⟨r2, rr⟩⟩⟩ <;>
      rw [hrow] at h
    · exact Option.noConfusion h
    · exact Option.noConfusion h
    · exact Option.noConfusion h
    · show PyDict.get? d1 k =
        orOpt (if r0.asString = k then some (r1.asString, r2.asString) else none)
          (PyDict.get? out k)
      injection h with h2
      subst h2
      by_cases hk : r0.asString = k
      · rw [if_pos hk, orOpt_some_left, ← hk]
        exact PyDict.get?_set_self out _ _
      · rw [if_neg hk, orOpt_none_left]
        exact PyDict.get?_set_ne out _ (fun he => hk he.symm)

theorem parseFile_get?_aux (lines : List (List Char)) (d0 d : PyDict String (String × String))
    (h : List.foldlM parseFileStep d0 lines = some d) (k : String) :
    PyDict.get? d k =
      orOpt ((lines.filterMap (fun line => lineBinding line k)).getLast?)
        (PyDict.get? d0 k) := by
  induction lines generalizing d0 with
  | nil =>
    simp [List.foldlM] at h
    subst h
    simp
  | cons line rest ih =>
    rw [List.foldlM_cons] at h
    cases hstep : parseFileStep d0 line with
    | none =>
      rw [hstep] at h
      simp at h
    | some d1 =>
      rw [hstep] at h
      simp at h
      cases hb : lineBinding line k with
      | none =>
        rw [List.filterMap_cons_none (f := fun l => lineBinding l k) hb]
        have hstep' := step_characterization d0 line d1 hstep k
        rw [hb, orOpt_none_left] at hstep'
        rw [ih d1 h, hstep']
      | some v =>
        rw [List.filterMap_cons_some (f := fun l => lineBinding l k) hb]
        have hstep' := step_characterization d0 line d1 hstep k
        rw [hb, orOpt_some_left] at hstep'
        rw [ih d1 h, hstep', getLast?_cons_orOpt, orOpt_assoc, orOpt_some_left]

/-- Claim C10: whenever `_parseFile` succeeds, every genome key is bound
to the `(accession, srr)` pair of the *last* non-blank manifest line
carrying that key — earlier lines for the same key are silently
overwritten, not reported. -/
theorem claim_manifest_last_wins (lines : List (List Char))
    (d : PyDict String (String × String)) (h : parseFile lines = some d) (k : String) :
    PyDict.get? d k = (lines.filterMap (fun line => lineBinding line k)).getLast? := by
  rw [parseFile_get?_aux lines [] d h k]
  simp [PyDict.get?]

theorem range_map_get? {α : Type} (l : List α) :
    (List.range l.length).map (fun i => l.get? i) = l.map some := by
  induction l with
  | nil => rfl
  | cons a t ih =>
    rw [List.length_cons, List.range_succ_eq_map, List.map_cons, List.map_cons]
    congr 1
    rw [List.map_map, ← ih]
    apply List.map_congr_left
    intro i hi
    rfl

/-- `Pool.starmap` is completion-order independent: reassembling any
permutation of the indexed results by argument index recovers the work
list in argument order. -/
theorem collectStarmap_perm {α : Type} (l : List α) (completed : List (Nat × α))
    (h : completed.Perm (indexedResults l)) :
    collectStarmap l.length completed = l.map some := by
  unfold collectStarmap
  rw [← range_map_get? l]
  apply List.map_congr_left
  intro i hi
  rw [List.mem_range] at hi
  obtain ⟨x, hx⟩ : ∃ x, l.get? i = some x := by
    cases hq : l.get? i with
    | none =>
      rw [List.get?_eq_none] at hq
      exact absurd hq (by omega)
    | some y => exact ⟨y, rfl⟩
  rw [hx]
  cases hf : completed.find? (fun p => decide (p.1 = i)) with
  | none =>
    have hm : (i, x) ∈ completed := by
      refine (h.mem_iff).mpr ?_
      rw [indexedResults]
      exact List.mk_mem_enum_iff_get?.mpr (by exact_mod_cast hx)
    have := List.find?_eq_none.mp hf (i, x) hm
    simp at this
  | some q =>
    have hq1 : q.1 = i := by
      have := List.find?_some hf
      simpa using this
    have hqm : q ∈ completed := List.mem_of_find?_eq_some hf
    have hqe : q ∈ l.enum := by
      have := (h.mem_iff).mp hqm
      rwa [indexedResults] at this
    have h2 : l.get? q.1 = some q.2 := by
      have := List.mem_enum_iff_get?.mp hqe
      exact_mod_cast this
    rw [hq1, hx] at h2
    simp
    exact (Option.some.inj h2).symm

/-- Witness for claim C10: a manifest in which key `A` appears twice
parses, and `A` is bound to the second line's accession and srr. -/
theorem claim_manifest_last_wins_witness :
    PyDict.get? [("A", ("a2", "s2"))] "A"
      = (["A\ta1\ts1".toList, "A\ta2\ts2".toList].filterMap
          (fun line => lineBinding line "A")).getLast? :=
  claim_manifest_last_wins ["A\ta1\ts1".toList, "A\ta2\ts2".toList]
    [("A", ("a2", "s2"))] (by decide) "A"

theorem PyDict.entry_unique {K V : Type} [DecidableEq K] {d : PyDict K V}
    (h : (PyDict.keys d).Nodup) {p q : K × V} (hp : p ∈ d) (hq : q ∈ d)
    (he : p.1 = q.1) : p = q := by
  have h1 : PyDict.get? d p.1 = some p.2 :=
    (PyDict.get?_eq_some_iff h).mpr (by simpa using hp)
  have h2 : PyDict.get? d q.1 = some q.2 :=
    (PyDict.get?_eq_some_iff h).mpr (by simpa using hq)
  rw [he, h2] at h1
  exact Prod.ext he (Option.some.inj h1).symm

theorem mem_map_fst_filter {A B : Type} (c : A × B → Bool) (l : List (A × B)) :
    ∀ k ∈ (l.filter c).map Prod.fst, k ∈ l.map Prod.fst := by
  intro k hk
  rcases List.mem_map.mp hk with ⟨p, hp, rfl⟩
  exact List.mem_map.mpr ⟨p, (List.mem_filter.mp hp).1, rfl⟩

theorem keys_blastResults (parsed : PyDict String (String × String))
    (missing : List String) (g : Oracles) (h : (PyDict.keys parsed).Nodup) :
    PyDict.keys (runAllBlasts parsed missing g).1
      = (keptEntries parsed missing).map Prod.fst := by
  have hkeys : PyDict.keys ((primaryArgs parsed missing).map
      (fun p => (p.1, (g.blastn p.2).1))) = (keptEntries parsed missing).map Prod.fst := by
    unfold PyDict.keys primaryArgs
    rw [List.map_map, List.map_map]
    rfl
  have hnd : ((keptEntries parsed missing).map Prod.fst).Nodup :=
    h.sublist ((List.filter_sublist parsed).map Prod.fst)
  show PyDict.keys (PyDict.ofList _) = _
  rw [PyDict.ofList_eq_self _ (by rw [show (((primaryArgs parsed missing).map
    (fun p => (p.1, (g.blastn p.2).1))).map Prod.fst : List String)
      = (keptEntries parsed missing).map Prod.fst from hkeys]; exact hnd)]
  exact hkeys

theorem blastResults_eq (parsed : PyDict String (String × String))
    (missing : List String) (g : Oracles) (h : (PyDict.keys parsed).Nodup) :
    (runAllBlasts parsed missing g).1
      = (primaryArgs parsed missing).map (fun p => (p.1, (g.blastn p.2).1)) := by
  have hkeys : PyDict.keys ((primaryArgs parsed missing).map
      (fun p => (p.1, (g.blastn p.2).1))) = (keptEntries parsed missing).map Prod.fst := by
    unfold PyDict.keys primaryArgs
    rw [List.map_map, List.map_map]
    rfl
  have hnd : ((keptEntries parsed missing).map Prod.fst).Nodup :=
    h.sublist ((List.filter_sublist parsed).map Prod.fst)
  exact PyDict.ofList_eq_self _ (by rw [show (((primaryArgs parsed missing).map
    (fun p => (p.1, (g.blastn p.2).1))).map Prod.fst : List String)
      = (keptEntries parsed missing).map Prod.fst from hkeys]; exact hnd)

theorem nodup_keys_blastResults (parsed : PyDict String (String × String))
    (missing : List String) (g : Oracles) (h : (PyDict.keys parsed).Nodup) :
    (PyDict.keys (runAllBlasts parsed missing g).1).Nodup := by
  rw [keys_blastResults parsed missing g h]
  exact h.sublist ((List.filter_sublist parsed).map Prod.fst)

theorem missingKeys_not_kept (parsed : PyDict String (String × String))
    (missing : List String) (h : (PyDict.keys parsed).Nodup) :
    ∀ k ∈ (missingEntries parsed missing).map Prod.fst,
      k ∉ (keptEntries parsed missing).map Prod.fst := by
  intro k hk hk'
  rcases List.mem_map.mp hk with ⟨q, hq, rfl⟩
  rcases List.mem_map.mp hk' with ⟨r, hr, hre⟩
  rw [missingEntries, List.mem_filter] at hq
  rw [keptEntries, List.mem_filter] at hr
  have heq := PyDict.entry_unique h hr.1 hq.1 hre
  subst heq
  have h1 := hq.2
  have h2 := hr.2
  simp at h1 h2
  exact h2 h1

theorem fallback_decomp (parsed : PyDict String (String × String))
    (missing : List String) (g : Oracles) (h : (PyDict.keys parsed).Nodup) :
    fallbackSrrs parsed missing g =
      ((runAllBlasts parsed missing g).1.filter (fun p => decide (p.2 = "absent"))).map
          (fun p => (p.1, (PyDict.getD parsed p.1 ("", "")).2)) ++
        (missingEntries parsed missing).map (fun p => (p.1, p.2.2)) := by
  unfold fallbackSrrs PyDict.update
  apply PyDict.ofList_eq_self_aux
  · intro p hp
    rcases List.mem_map.mp hp with ⟨q, hq, rfl⟩
    intro hmem
    have h1 : q.1 ∈ PyDict.keys (runAllBlasts parsed missing g).1 := by
      have hk : PyDict.keys (((runAllBlasts parsed missing g).1.filter
          (fun p => decide (p.2 = "absent"))).map
            (fun p => (p.1, (PyDict.getD parsed p.1 ("", "")).2)))
          = ((runAllBlasts parsed missing g).1.filter
              (fun p => decide (p.2 = "absent"))).map Prod.fst := by
        unfold PyDict.keys
        rw [List.map_map]
        rfl
      rw [hk] at hmem
      exact mem_map_fst_filter _ _ q.1 hmem
    rw [keys_blastResults parsed missing g h] at h1
    exact missingKeys_not_kept parsed missing h q.1 (List.mem_map.mpr ⟨q, hq, rfl⟩) h1
  · rw [List.map_map]
    exact h.sublist ((List.filter_sublist parsed).map Prod.fst)

theorem keys_fallback (parsed : PyDict String (String × String))
    (missing : List String) (g : Oracles) (h : (PyDict.keys parsed).Nodup) :
    PyDict.keys (fallbackSrrs parsed missing g) =
      ((runAllBlasts parsed missing g).1.filter
          (fun p => decide (p.2 = "absent"))).map Prod.fst
        ++ (missingEntries parsed missing).map Prod.fst := by
  rw [fallback_decomp parsed missing g h, PyDict.keys_append]
  unfold PyDict.keys
  rw [List.map_map, List.map_map]
  rfl

theorem nodup_keys_fallback (parsed : PyDict String (String × String))
    (missing : List String) (g : Oracles) (h : (PyDict.keys parsed).Nodup) :
    (PyDict.keys (fallbackSrrs parsed missing g)).Nodup := by
  rw [keys_fallback parsed missing g h]
  refine List.Nodup.append ?_ ?_ ?_
  · exact (nodup_keys_blastResults parsed missing g h).sublist
      ((List.filter_sublist _).map _)
  · exact h.sublist ((List.filter_sublist parsed).map Prod.fst)
  · intro a ha hm
    have h1 : a ∈ PyDict.keys (runAllBlasts parsed missing g).1 :=
      mem_map_fst_filter _ _ a ha
    rw [keys_blastResults parsed missing g h] at h1
    exact missingKeys_not_kept parsed missing h a hm h1

theorem aribaResults_eq (srrs : PyDict String String) (g : Oracles)
    (hs : (PyDict.keys srrs).Nodup) :
    (runAllAribas srrs g).1 = srrs.map (fun p => (p.1, g.ariba p.2)) := by
  apply PyDict.ofList_eq_self
  rw [List.map_map]
  exact hs

theorem keys_aribaResults (srrs : PyDict String String) (g : Oracles)
    (hs : (PyDict.keys srrs).Nodup) :
    PyDict.keys (runAllAribas srrs g).1 = PyDict.keys srrs := by
  rw [aribaResults_eq srrs g hs]
  unfold PyDict.keys
  rw [List.map_map]
  rfl

theorem keys_runnerCore (parsed : PyDict String (String × String))
    (missing : List String) (g : Oracles) (h : (PyDict.keys parsed).Nodup) :
    PyDict.keys (runnerCore parsed missing g).1 =
      (keptEntries parsed missing).map Prod.fst
        ++ (missingEntries parsed missing).map Prod.fst := by
  unfold runnerCore
  by_cases hsrr : fallbackSrrs parsed missing g = []
  · rw [if_pos hsrr, keys_blastResults parsed missing g h]
    have hnil : (missingEntries parsed missing).map (fun p => (p.1, p.2.2)) = [] := by
      have hd := fallback_decomp parsed missing g h
      rw [hsrr] at hd
      exact (List.append_eq_nil.mp hd.symm).2
    rw [List.map_eq_nil.mp hnil]
    simp
  · rw [if_neg hsrr]
    show PyDict.keys (PyDict.update _ _) = _
    rw [PyDict.keys_update _ _ (by
      rw [keys_aribaResults _ g (nodup_keys_fallback parsed missing g h)]
      exact nodup_keys_fallback parsed missing g h)]
    rw [keys_aribaResults _ g (nodup_keys_fallback parsed missing g h)]
    rw [keys_fallback parsed missing g h, keys_blastResults parsed missing g h]
    rw [List.filter_append]
    have habs : ((((runAllBlasts parsed missing g).1.filter
        (fun p => decide (p.2 = "absent"))).map Prod.fst).filter
          (fun x => decide (x ∉ (keptEntries parsed missing).map Prod.fst))) = [] := by
      rw [List.filter_eq_nil]
      intro a ha
      have h1 : a ∈ PyDict.keys (runAllBlasts parsed missing g).1 :=
        mem_map_fst_filter _ _ a ha
      rw [keys_blastResults parsed missing g h] at h1
      simp [h1]
    have hmiss : (((missingEntries parsed missing).map Prod.fst).filter
        (fun x => decide (x ∉ (keptEntries parsed missing).map Prod.fst)))
          = (missingEntries parsed missing).map Prod.fst := by
      rw [List.filter_eq_self]
      intro a ha
      simp [missingKeys_not_kept parsed missing h a ha]
    rw [habs, hmiss, List.nil_append]

theorem nodup_keys_runnerCore (parsed : PyDict String (String × String))
    (missing : List String) (g : Oracles) (h : (PyDict.keys parsed).Nodup) :
    (PyDict.keys (runnerCore parsed missing g).1).Nodup := by
  rw [keys_runnerCore parsed missing g h]
  refine List.Nodup.append (h.sublist ((List.filter_sublist parsed).map Prod.fst))
    (h.sublist ((List.filter_sublist parsed).map Prod.fst)) ?_
  intro a ha hm
  exact missingKeys_not_kept parsed missing h a hm ha

/-- Claim C3: the final mapping starts from the primary mapping and
overwrites/inserts every key of the secondary mapping — every secondary
binding wins, every key the secondary stage did not touch keeps its
primary binding — and every input genome key appears in the final result
exactly once. -/
theorem claim_merge_final_mapping (parsed : PyDict String (String × String))
    (missing : List String) (g : Oracles) (h : (PyDict.keys parsed).Nodup) :
    (∀ (k v : String),
        PyDict.get? (runAllAribas (fallbackSrrs parsed missing g) g).1 k = some v →
        PyDict.get? (runnerCore parsed missing g).1 k = some v) ∧
    (∀ k : String,
        k ∉ PyDict.keys (runAllAribas (fallbackSrrs parsed missing g) g).1 →
        PyDict.get? (runnerCore parsed missing g).1 k
          = PyDict.get? (runAllBlasts parsed missing g).1 k) ∧
    (PyDict.keys (runnerCore parsed missing g).1).Nodup ∧
    (∀ k : String, k ∈ PyDict.keys (runnerCore parsed missing g).1 ↔
        k ∈ PyDict.keys parsed) := by
  have hnd : (PyDict.keys (runAllAribas (fallbackSrrs parsed missing g) g).1).Nodup := by
    rw [keys_aribaResults _ g (nodup_keys_fallback parsed missing g h)]
    exact nodup_keys_fallback parsed missing g h
  refine ⟨?_, ?_, nodup_keys_runnerCore parsed missing g h, ?_⟩
  · intro k v hv
    unfold runnerCore
    by_cases hsrr : fallbackSrrs parsed missing g = []
    · exfalso
      rw [hsrr] at hv
      simp [runAllAribas, PyDict.ofList, PyDict.get?] at hv
    · rw [if_neg hsrr]
      show PyDict.get? (PyDict.update _ _) k = some v
      rw [PyDict.get?_update _ _ _ hnd, hv]
      rfl
  · intro k hk
    unfold runnerCore
    by_cases hsrr : fallbackSrrs parsed missing g = []
    · rw [if_pos hsrr]
    · rw [if_neg hsrr]
      show PyDict.get? (PyDict.update _ _) k = _
      rw [PyDict.get?_update _ _ _ hnd, PyDict.get?_eq_none hk]
      rfl
  · intro k
    rw [keys_runnerCore parsed missing g h]
    rw [List.mem_append]
    constructor
    · intro hm
      rcases hm with hm' | hm'
      · exact mem_map_fst_filter _ _ k hm'
      · exact mem_map_fst_filter _ _ k hm'
    · intro hm
      rcases List.mem_map.mp hm with ⟨p, hp, rfl⟩
      by_cases hacc : p.2.1 ∈ missing
      · exact Or.inr (List.mem_map.mpr ⟨p, List.mem_filter.mpr ⟨hp, by simp [hacc]⟩, rfl⟩)
      · exact Or.inl (List.mem_map.mpr ⟨p, List.mem_filter.mpr ⟨hp, by simp [hacc]⟩, rfl⟩)

/-- Witness for claim C3: genome `A` is primary-`absent`, its secondary
call `deletion` wins in the final mapping. -/
theorem claim_merge_final_mapping_witness :
    PyDict.get? (runnerCore [("A", ("a", "s"))] [] simpleOracle).1 "A" = some "deletion" :=
  (claim_merge_final_mapping [("A", ("a", "s"))] [] simpleOracle (by decide)).1
    "A" "deletion" (by decide)

/-- Claim C4: the ariba work list is exactly the union of the genomes
whose primary call is `absent` and the genomes whose accession is in the
missing set; when it is empty, the run performs no secondary-stage work
at all (no read download, no database build, no ariba assembly). -/
theorem claim_fallback_set (parsed : PyDict String (String × String))
    (missing : List String) (g : Oracles) (h : (PyDict.keys parsed).Nodup) :
    (∀ k : String, k ∈ PyDict.keys (fallbackSrrs parsed missing g) ↔
      (PyDict.get? (runAllBlasts parsed missing g).1 k = some "absent" ∨
        ∃ v, PyDict.get? parsed k = some v ∧ v.1 ∈ missing)) ∧
    (fallbackSrrs parsed missing g = [] →
      runnerCore parsed missing g = runAllBlasts parsed missing g) := by
  constructor
  · intro k
    rw [keys_fallback parsed missing g h, List.mem_append]
    have h1 : k ∈ ((runAllBlasts parsed missing g).1.filter
        (fun p => decide (p.2 = "absent"))).map Prod.fst ↔
        PyDict.get? (runAllBlasts parsed missing g).1 k = some "absent" := by
      constructor
      · intro hm
        rcases List.mem_map.mp hm with ⟨p, hp, rfl⟩
        rw [List.mem_filter] at hp
        have hpa : p.2 = "absent" := by simpa using hp.2
        refine (PyDict.get?_eq_some_iff
          (nodup_keys_blastResults parsed missing g h)).mpr ?_
        rw [← hpa]
        simpa using hp.1
      · intro hg
        have hmem := (PyDict.get?_eq_some_iff
          (nodup_keys_blastResults parsed missing g h)).mp hg
        exact List.mem_map.mpr ⟨(k, "absent"),
          List.mem_filter.mpr ⟨hmem, by simp⟩, rfl⟩
    have h2 : k ∈ (missingEntries parsed missing).map Prod.fst ↔
        ∃ v, PyDict.get? parsed k = some v ∧ v.1 ∈ missing := by
      constructor
      · intro hm
        rcases List.mem_map.mp hm with ⟨p, hp, rfl⟩
        rw [missingEntries, List.mem_filter] at hp
        exact ⟨p.2, (PyDict.get?_eq_some_iff h).mpr (by simpa using hp.1),
          by simpa using hp.2⟩
      · rintro ⟨v, hv, hm⟩
        have hmem := (PyDict.get?_eq_some_iff h).mp hv
        exact List.mem_map.mpr ⟨(k, v),
          List.mem_filter.mpr ⟨hmem, by simpa using hm⟩, rfl⟩
    rw [h1, h2]
  · intro hsrr
    unfold runnerCore
    rw [if_pos hsrr]

/-- Witness for claim C4: with a full-length primary hit and nothing
missing the fallback set is empty and the run is exactly the primary
stage. -/
theorem claim_fallback_set_witness :
    runnerCore [("A", ("a", "s"))] [] fullHitOracle
      = runAllBlasts [("A", ("a", "s"))] [] fullHitOracle :=
  (claim_fallback_set [("A", ("a", "s"))] [] fullHitOracle (by decide)).2 (by decide)

/-- Counterexample to claim C6: with genome `A`'s assembly missing and
genome `B` primary-resolved, the report rows come out `B` then `A` —
not the manifest order `A` then `B` — because `dict.update` appends the
missing-data genomes after the primary results. -/
theorem claim_report_order_cex :
    PyDict.keys [("A", ("accA", "srrA")), ("B", ("accB", "srrB"))] = ["A", "B"] ∧
    writeResults (runnerCore [("A", ("accA", "srrA")), ("B", ("accB", "srrB"))]
        ["accA"] mixedOracle).1 = "B\tfull length\nA\tdeletion\n" ∧
    PyDict.keys (runnerCore [("A", ("accA", "srrA")), ("B", ("accB", "srrB"))]
        ["accA"] mixedOracle).1 = ["B", "A"] ∧
    (["B", "A"] : List String) ≠ ["A", "B"] :=
  ⟨by decide, by decide, by decide, by decide⟩

/-- Claim C6 (amended): the report is deterministic — `Pool.starmap`
reassembly is independent of worker completion order, and the serialized
report is a pure function of the parsed manifest, missing set and tool
results — and its rows are the primary-fanout genomes in manifest order
followed by the missing-data genomes in manifest order; exactly manifest
order whenever no genome's sequence data is missing. -/
theorem claim_report_determinism (parsed : PyDict String (String × String))
    (missing : List String) (g : Oracles) (h : (PyDict.keys parsed).Nodup) :
    (∀ (results : List (String × String)) (c c' : List (Nat × (String × String))),
        c.Perm (indexedResults results) → c'.Perm (indexedResults results) →
        collectStarmap results.length c = collectStarmap results.length c') ∧
    PyDict.keys (runnerCore parsed missing g).1 =
      (keptEntries parsed missing).map Prod.fst
        ++ (missingEntries parsed missing).map Prod.fst ∧
    ((∀ p ∈ parsed, p.2.1 ∉ missing) →
      PyDict.keys (runnerCore parsed missing g).1 = PyDict.keys parsed) := by
  refine ⟨?_, keys_runnerCore parsed missing g h, ?_⟩
  · intro results c c' hc hc'
    rw [collectStarmap_perm results c hc, collectStarmap_perm results c' hc']
  · intro hnone
    rw [keys_runnerCore parsed missing g h]
    have h1 : keptEntries parsed missing = parsed := by
      rw [keptEntries, List.filter_eq_self]
      intro p hp
      simp [hnone p hp]
    have h2 : missingEntries parsed missing = [] := by
      rw [missingEntries, List.filter_eq_nil]
      intro p hp
      simp [hnone p hp]
    rw [h1, h2]
    simp [PyDict.keys]

/-- Witness for the amended claim C6: with nothing missing, report rows
are in manifest order. -/
theorem claim_report_determinism_witness :
    PyDict.keys (runnerCore [("A", ("a", "s"))] [] simpleOracle).1
      = PyDict.keys [("A", ("a", "s"))] :=
  (claim_report_determinism [("A", ("a", "s"))] [] simpleOracle (by decide)).2.2 (by decide)

theorem str_foldl_join (l : List String) (s : String) :
    l.foldl (fun a b => a ++ b) s = s ++ String.join l := by
  induction l generalizing s with
  | nil => simp [String.join]
  | cons a t ih =>
    rw [List.foldl_cons, ih]
    have hj : String.join (a :: t) = a ++ String.join t := by
      show List.foldl (fun a b => a ++ b) "" (a :: t) = _
      rw [List.foldl_cons, ih]
      simp
    rw [hj, String.append_assoc]

theorem writeResults_join (results : PyDict String String) :
    writeResults results
      = String.join (results.map (fun p => p.1 ++ "\t" ++ p.2 ++ "\n")) := by
  suffices hgen : ∀ s, results.foldl (fun acc p => acc ++ p.1 ++ "\t" ++ p.2 ++ "\n") s
      = s ++ String.join (results.map fun p => p.1 ++ "\t" ++ p.2 ++ "\n") by
    rw [writeResults, hgen]
    simp
  induction results with
  | nil =>
    intro s
    simp [String.join]
  | cons p t ih =>
    intro s
    rw [List.foldl_cons, ih, List.map_cons]
    have hj : String.join ((p.1 ++ "\t" ++ p.2 ++ "\n")
        :: t.map (fun p => p.1 ++ "\t" ++ p.2 ++ "\n"))
        = (p.1 ++ "\t" ++ p.2 ++ "\n")
            ++ String.join (t.map (fun p => p.1 ++ "\t" ++ p.2 ++ "\n")) := by
      show List.foldl (fun a b => a ++ b) "" _ = _
      rw [List.foldl_cons, str_foldl_join]
      simp
    rw [hj]
    simp [String.append_assoc]

/-- Counterexample to claim C7: `_runOneBlastn` returns `(key, allele)`,
discarding the contig `_blastn` reported, and `_writeResults` writes two
columns for every row — genome `A`, called `full length` on contig `c1`
by the primary strategy, is reported `A\tfull length` with no third
column. -/
theorem claim_report_contig_cex :
    (fullHitOracle.blastn "a").2 = some "c1" ∧
    writeResults (runnerCore [("A", ("a", "s"))] [] fullHitOracle).1
      = "A\tfull length\n" ∧
    "A\tfull length\n" ≠ "A\tfull length\tc1\n" :=
  ⟨rfl, by decide, by decide⟩

/-- Claim C7 (amended): every report row has exactly the two columns key
and allele label; the supporting contig never reaches the report — the
whole run outcome is unchanged under any change of the contigs the
primary tool reports. -/
theorem claim_report_columns (parsed : PyDict String (String × String))
    (missing : List String) (g g' : Oracles)
    (hb : ∀ acc, (g.blastn acc).1 = (g'.blastn acc).1)
    (ha : ∀ srr, g.ariba srr = g'.ariba srr) :
    runnerCore parsed missing g = runnerCore parsed missing g' ∧
    ∀ results : PyDict String String,
      writeResults results
        = String.join (results.map (fun p => p.1 ++ "\t" ++ p.2 ++ "\n")) := by
  have hb' : (fun p : String × String => (p.1, (g.blastn p.2).1))
      = (fun p => (p.1, (g'.blastn p.2).1)) := funext fun p => by rw [hb]
  have ha' : (fun p : String × String => (p.1, g.ariba p.2))
      = (fun p => (p.1, g'.ariba p.2)) := funext fun p => by rw [ha]
  refine ⟨?_, writeResults_join⟩
  simp only [runnerCore, fallbackSrrs, runAllAribas, runAllBlasts, hb', ha']

/-- Witness for the amended claim C7: deleting the contigs from the
oracle leaves the run outcome unchanged. -/
theorem claim_report_columns_witness :
    runnerCore [("A", ("a", "s"))] [] fullHitOracle
      = runnerCore [("A", ("a", "s"))] [] fullHitOracleNoContig :=
  (claim_report_columns [("A", ("a", "s"))] [] fullHitOracle fullHitOracleNoContig
    (fun _ => rfl) (fun _ => rfl)).1

/-- Claim C8 (code violation): in a run with one fallback genome the
ariba reference database is built twice — once by `_runAllAribas`'s
sequential setup loop before the pool, and once more inside the pooled
worker, because `_ariba` itself calls `__buildAribaDb`; the spec's
contract says it is never built inside a pooled worker. -/
theorem claim_ariba_db_worker_build :
    (runnerCore [("A", ("a", "s"))] [] simpleOracle).2 =
      [Event.runBlastSearch "A", Event.downloadSrrs ["s"],
       Event.buildAribaDb false, Event.buildAribaDb true,
       Event.runAribaAssembly "A"] ∧
    (runnerCore [("A", ("a", "s"))] [] simpleOracle).2.count
      (Event.buildAribaDb true) = 1 :=
  ⟨by decide, by decide⟩

theorem PyDict.nodup_keys_set {K V : Type} [DecidableEq K] (d : PyDict K V) (k : K)
    (v : V) (h : (PyDict.keys d).Nodup) : (PyDict.keys (PyDict.set d k v)).Nodup := by
  rw [PyDict.keys_set]
  split_ifs with hk
  · exact h
  · refine List.Nodup.append h (List.nodup_singleton k) ?_
    intro a ha hb
    rw [List.mem_singleton] at hb
    subst hb
    exact hk ha

theorem parseFileStep_nodup_keys (out d1 : PyDict String (String × String))
    (line : List Char) (h : parseFileStep out line = some d1)
    (h0 : (PyDict.keys out).Nodup) : (PyDict.keys d1).Nodup := by
  unfold parseFileStep at h
  by_cases hb : splitTab (rstripChars line) = [[]]
  · rw [if_pos hb] at h
    injection h with h2
    subst h2
    exact h0
  · rw [if_neg hb] at h
    rcases hrow : splitTab (rstripChars line) with _ | ⟨r0, _ | ⟨r1, _ | ⟨r2, rr⟩⟩⟩ <;>
      rw [hrow] at h
    · exact Option.noConfusion h
    · exact Option.noConfusion h
    · exact Option.noConfusion h
    · injection h with h2
      subst h2
      exact PyDict.nodup_keys_set out _ _ h0

/-- `_parseFile` always yields a mapping with pairwise-distinct keys:
the duplicate-key hypothesis of the orchestration theorems is satisfied
by every successfully parsed manifest. -/
theorem parseFile_nodup_keys (lines : List (List Char))
    (d : PyDict String (String × String)) (h : parseFile lines = some d) :
    (PyDict.keys d).Nodup := by
  suffices haux : ∀ (ls : List (List Char)) (d0 dr : PyDict String (String × String)),
      (PyDict.keys d0).Nodup → List.foldlM parseFileStep d0 ls = some dr →
      (PyDict.keys dr).Nodup by
    exact haux lines [] d (by simp [PyDict.keys]) h
  intro ls
  induction ls with
  | nil =>
    intro d0 dr h0 hf
    simp [List.foldlM] at hf
    subst hf
    exact h0
  | cons line rest ih =>
    intro d0 dr h0 hf
    rw [List.foldlM_cons] at hf
    cases hstep : parseFileStep d0 line with
    | none =>
      rw [hstep] at hf
      simp at hf
    | some d1 =>
      rw [hstep] at hf
      simp at hf
      exact ih d1 dr (parseFileStep_nodup_keys d0 d1 line hstep h0) hf

end Espw
